import Mathlib

/-!
Verification of the core engine of `ynab_checker.py`: calendar occurrence
generation, balance projection, risk ranking and the surplus/deficit transfer
allocator.  Python's `datetime.date` values are always valid calendar dates,
so the embedded `Date` type carries the validity invariants as fields.
-/

namespace YnabChecker

/-- Gregorian leap-year test (Python `calendar.isleap`, used by `monthrange`). -/
def isLeap (y : Nat) : Bool :=
  (y % 4 == 0 && y % 100 != 0) || y % 400 == 0

/-- Length of month `m` of year `y`, as `calendar.monthrange(y, m)[1]`. -/
def daysInMonth (y m : Nat) : Nat :=
  if m = 2 then (if isLeap y then 29 else 28)
  else if m = 4 ∨ m = 6 ∨ m = 9 ∨ m = 11 then 30
  else 31

theorem daysInMonth_pos (y m : Nat) : 1 ≤ daysInMonth y m := by
  unfold daysInMonth
  split
  · split <;> omega
  · split <;> omega

/-- Days of year `y` that lie strictly before month `m` (sum of the lengths of
months `1 .. m-1`). -/
def daysBeforeMonth (y : Nat) : Nat → Nat
  | 0 => 0
  | m + 1 => daysBeforeMonth y m + (if m = 0 then 0 else daysInMonth y m)

theorem daysBeforeMonth_succ (y m : Nat) (h : 1 ≤ m) :
    daysBeforeMonth y (m + 1) = daysBeforeMonth y m + daysInMonth y m := by
  have hm : ¬ m = 0 := by omega
  simp [daysBeforeMonth, hm]

theorem daysBeforeMonth_mono (y : Nat) {m₁ m₂ : Nat} (h : m₁ ≤ m₂) :
    daysBeforeMonth y m₁ ≤ daysBeforeMonth y m₂ := by
  induction m₂ with
  | zero =>
      have : m₁ = 0 := by omega
      subst this
      exact Nat.le_refl _
  | succ n ih =>
      rcases Nat.lt_or_ge m₁ (n + 1) with hlt | hge
      · have := ih (by omega)
        have hstep : daysBeforeMonth y n ≤ daysBeforeMonth y (n + 1) := by
          simp only [daysBeforeMonth]
          omega
        omega
      · have : m₁ = n + 1 := by omega
        subst this
        exact Nat.le_refl _

/-- Length of year `y` in days. -/
def daysInYear (y : Nat) : Nat := 365 + (if isLeap y then 1 else 0)

theorem isLeap_iff (y : Nat) :
    isLeap y = true ↔ (y % 4 = 0 ∧ y % 100 ≠ 0) ∨ y % 400 = 0 := by
  simp [isLeap]

theorem daysBeforeMonth_thirteen (y : Nat) : daysBeforeMonth y 13 = daysInYear y := by
  cases h : isLeap y <;>
    simp [daysBeforeMonth, daysInMonth, daysInYear, h]

/-- Leap years among `1 .. n` (Python `datetime._days_before_year` arithmetic). -/
def leapsBefore (n : Nat) : Nat := n / 4 - n / 100 + n / 400

/-- Days strictly before January 1 of year `y`; ordinal day 1 is 0001-01-01. -/
def daysBeforeYear (y : Nat) : Nat := 365 * (y - 1) + leapsBefore (y - 1)

theorem leapsBefore_succ (n : Nat) :
    leapsBefore (n + 1) = leapsBefore n + (if isLeap (n + 1) then 1 else 0) := by
  have h := isLeap_iff (n + 1)
  unfold leapsBefore
  cases hL : isLeap (n + 1) with
  | false =>
      rw [hL] at h
      simp only [Bool.false_eq_true, false_iff] at h
      simp only [Bool.false_eq_true, if_false]
      omega
  | true =>
      rw [hL] at h
      simp only [true_iff] at h
      simp only [if_true]
      omega

theorem daysBeforeYear_succ (y : Nat) (h : 1 ≤ y) :
    daysBeforeYear (y + 1) = daysBeforeYear y + daysInYear y := by
  obtain ⟨k, rfl⟩ : ∃ k, y = k + 1 := ⟨y - 1, by omega⟩
  have hstep := leapsBefore_succ k
  unfold daysBeforeYear daysInYear
  simp only [Nat.add_sub_cancel]
  cases hL : isLeap (k + 1) <;> rw [hL] at hstep <;> simp at hstep ⊢ <;> omega

theorem daysBeforeYear_mono {y₁ y₂ : Nat} (h : y₁ ≤ y₂) :
    daysBeforeYear y₁ ≤ daysBeforeYear y₂ := by
  unfold daysBeforeYear leapsBefore
  omega

/-- A calendar date.  Python's `datetime.date` constructor only ever yields
valid dates, so validity is part of the type. -/
structure Date where
  year : Nat
  month : Nat
  day : Nat
  year_pos : 1 ≤ year
  month_pos : 1 ≤ month
  month_le : month ≤ 12
  day_pos : 1 ≤ day
  day_le : day ≤ daysInMonth year month

theorem Date.ext_ymd {a b : Date} (hy : a.year = b.year) (hm : a.month = b.month)
    (hd : a.day = b.day) : a = b := by
  cases a; cases b
  cases hy; cases hm; cases hd
  rfl

instance : DecidableEq Date := fun a b =>
  if h : a.year = b.year ∧ a.month = b.month ∧ a.day = b.day then
    isTrue (Date.ext_ymd h.1 h.2.1 h.2.2)
  else
    isFalse (fun he => h (by cases he; exact ⟨rfl, rfl, rfl⟩))

/-- Python compares dates lexicographically by (year, month, day). -/
def Date.lt (a b : Date) : Prop :=
  a.year < b.year ∨
    (a.year = b.year ∧ (a.month < b.month ∨ (a.month = b.month ∧ a.day < b.day)))

instance : LT Date := ⟨Date.lt⟩

instance Date.decLt : ∀ a b : Date, Decidable (a < b) := fun a b =>
  decidable_of_iff
    (a.year < b.year ∨
      (a.year = b.year ∧ (a.month < b.month ∨ (a.month = b.month ∧ a.day < b.day))))
    Iff.rfl

def Date.le (a b : Date) : Prop := a < b ∨ a = b

instance : LE Date := ⟨Date.le⟩

instance Date.decLe : ∀ a b : Date, Decidable (a ≤ b) := fun a b =>
  decidable_of_iff (a < b ∨ a = b) Iff.rfl

/-- Python `date.toordinal`: days since 0000-12-31 (0001-01-01 is day 1). -/
def Date.toOrdinal (d : Date) : Nat :=
  daysBeforeYear d.year + daysBeforeMonth d.year d.month + d.day

theorem Date.toOrdinal_lt_of_lt {a b : Date} (h : a < b) :
    a.toOrdinal < b.toOrdinal := by
  unfold Date.toOrdinal
  rcases h with hy | ⟨hy, hm | ⟨hm, hd⟩⟩
  · have hbound : daysBeforeMonth a.year a.month + a.day ≤ daysInYear a.year := by
      have h1 : daysBeforeMonth a.year (a.month + 1) ≤ daysBeforeMonth a.year 13 :=
        daysBeforeMonth_mono a.year (by have := a.month_le; omega)
      rw [daysBeforeMonth_succ a.year a.month a.month_pos,
          daysBeforeMonth_thirteen] at h1
      have := a.day_le
      omega
    have hsucc := daysBeforeYear_succ a.year a.year_pos
    have hmono := daysBeforeYear_mono (show a.year + 1 ≤ b.year by omega)
    have hb1 := b.day_pos
    omega
  · have hstep : daysBeforeMonth a.year (a.month + 1) ≤ daysBeforeMonth a.year b.month :=
      daysBeforeMonth_mono a.year (by omega)
    rw [daysBeforeMonth_succ a.year a.month a.month_pos] at hstep
    have hda := a.day_le
    have hdb := b.day_pos
    rw [hy] at hstep hda ⊢
    omega
  · rw [hy, hm]
    omega

theorem Date.lt_or_eq_or_gt (a b : Date) : a < b ∨ a = b ∨ b < a := by
  by_cases hy : a.year = b.year
  · by_cases hm : a.month = b.month
    · by_cases hd : a.day = b.day
      · exact Or.inr (Or.inl (Date.ext_ymd hy hm hd))
      · rcases Nat.lt_or_ge a.day b.day with h | h
        · exact Or.inl (Or.inr ⟨hy, Or.inr ⟨hm, h⟩⟩)
        · exact Or.inr (Or.inr (Or.inr ⟨hy.symm, Or.inr ⟨hm.symm, by omega⟩⟩))
    · rcases Nat.lt_or_ge a.month b.month with h | h
      · exact Or.inl (Or.inr ⟨hy, Or.inl h⟩)
      · exact Or.inr (Or.inr (Or.inr ⟨hy.symm, Or.inl (by omega)⟩))
  · rcases Nat.lt_or_ge a.year b.year with h | h
    · exact Or.inl (Or.inl h)
    · exact Or.inr (Or.inr (Or.inl (by omega)))

theorem Date.toOrdinal_lt_iff {a b : Date} : a.toOrdinal < b.toOrdinal ↔ a < b := by
  constructor
  · intro h
    rcases Date.lt_or_eq_or_gt a b with h1 | h1 | h1
    · exact h1
    · subst h1; omega
    · have := Date.toOrdinal_lt_of_lt h1; omega
  · exact Date.toOrdinal_lt_of_lt

theorem Date.toOrdinal_le_iff {a b : Date} : a.toOrdinal ≤ b.toOrdinal ↔ a ≤ b := by
  constructor
  · intro h
    rcases Date.lt_or_eq_or_gt a b with h1 | h1 | h1
    · exact Or.inl h1
    · exact Or.inr h1
    · have := Date.toOrdinal_lt_of_lt h1; omega
  · rintro (h | rfl)
    · exact Nat.le_of_lt (Date.toOrdinal_lt_of_lt h)
    · exact Nat.le_refl _

theorem Date.not_le_iff {a b : Date} : ¬ a ≤ b ↔ b < a := by
  rw [← Date.toOrdinal_le_iff, ← Date.toOrdinal_lt_iff]
  omega

theorem Date.le_total' (a b : Date) : a ≤ b ∨ b ≤ a := by
  rw [← Date.toOrdinal_le_iff, ← Date.toOrdinal_le_iff]
  omega

theorem Date.le_trans' {a b c : Date} (h1 : a ≤ b) (h2 : b ≤ c) : a ≤ c := by
  rw [← Date.toOrdinal_le_iff] at h1 h2 ⊢
  omega

theorem Date.lt_of_le_of_lt' {a b c : Date} (h1 : a ≤ b) (h2 : b < c) : a < c := by
  rw [← Date.toOrdinal_le_iff] at h1
  rw [← Date.toOrdinal_lt_iff] at h2 ⊢
  omega

theorem Date.lt_of_lt_of_le' {a b c : Date} (h1 : a < b) (h2 : b ≤ c) : a < c := by
  rw [← Date.toOrdinal_le_iff] at h2
  rw [← Date.toOrdinal_lt_iff] at h1 ⊢
  omega

theorem Date.le_of_lt' {a b : Date} (h : a < b) : a ≤ b := Or.inl h

/-- The day after `d`.  Python's `d + timedelta(days=1)`. -/
def nextDay (d : Date) : Date :=
  if h : d.day < daysInMonth d.year d.month then
    ⟨d.year, d.month, d.day + 1, d.year_pos, d.month_pos, d.month_le, by omega, h⟩
  else if h2 : d.month < 12 then
    ⟨d.year, d.month + 1, 1, d.year_pos, by omega, by omega, by omega,
     daysInMonth_pos _ _⟩
  else
    ⟨d.year + 1, 1, 1, by omega, by omega, by omega, by omega, daysInMonth_pos _ _⟩

theorem toOrdinal_nextDay (d : Date) : (nextDay d).toOrdinal = d.toOrdinal + 1 := by
  unfold nextDay
  split
  · simp only [Date.toOrdinal]
    omega
  · rename_i hday
    split
    · rename_i hmon
      have hs := daysBeforeMonth_succ d.year d.month d.month_pos
      have hle := d.day_le
      simp only [Date.toOrdinal]
      omega
    · rename_i hmon
      have hs := daysBeforeMonth_succ d.year 12 (by omega)
      norm_num at hs
      have h13 := daysBeforeMonth_thirteen d.year
      have hy := daysBeforeYear_succ d.year d.year_pos
      have hle := d.day_le
      have hm12 : d.month = 12 := by have := d.month_le; omega
      have h31 : daysInMonth d.year 12 = 31 := by simp [daysInMonth]
      have h1 : daysBeforeMonth (d.year + 1) 1 = 0 := by simp [daysBeforeMonth]
      rw [hm12] at hle hday
      simp only [Date.toOrdinal, h1]
      rw [hm12]
      unfold daysInYear at h13 hy
      cases hL : isLeap d.year <;> rw [hL] at h13 hy <;> simp at h13 hy <;> omega

/-- `d + timedelta(days=n)`: the date `n` days after `d`. -/
def addDays (d : Date) : Nat → Date
  | 0 => d
  | n + 1 => nextDay (addDays d n)

theorem toOrdinal_addDays (d : Date) (n : Nat) :
    (addDays d n).toOrdinal = d.toOrdinal + n := by
  induction n with
  | zero => rfl
  | succ k ih =>
      rw [addDays, toOrdinal_nextDay, ih]
      omega

/-- Python `add_months`: advance `src` by `months` whole months, clamping the
day-of-month to the last valid day of the target month. -/
def add_months (src : Date) (months : Nat) : Date :=
  ⟨src.year + (src.month - 1 + months) / 12,
   (src.month - 1 + months) % 12 + 1,
   min src.day
     (daysInMonth (src.year + (src.month - 1 + months) / 12)
       ((src.month - 1 + months) % 12 + 1)),
   by have := src.year_pos; omega,
   by omega,
   by omega,
   le_min src.day_pos (daysInMonth_pos _ _),
   min_le_right _ _⟩

/-- Python `advance_date`: the next cursor date for a frequency, or `none` for
`"never"` and for any unrecognized frequency string. -/
def advance_date (current : Date) (frequency : String) : Option Date :=
  if frequency = "never" then none
  else if frequency = "daily" then some (addDays current 1)
  else if frequency = "weekly" then some (addDays current 7)
  else if frequency = "everyOtherWeek" then some (addDays current 14)
  else if frequency = "every4Weeks" then some (addDays current 28)
  else if frequency = "twiceAMonth" then some (addDays current 15)
  else if frequency = "monthly" then some (add_months current 1)
  else if frequency = "everyOtherMonth" then some (add_months current 2)
  else if frequency = "every3Months" then some (add_months current 3)
  else if frequency = "every4Months" then some (add_months current 4)
  else if frequency = "twiceAYear" then some (add_months current 6)
  else if frequency = "yearly" then some (add_months current 12)
  else if frequency = "everyOtherYear" then some (add_months current 24)
  else none

/-- The frequency values for which `advance_date` actually advances. -/
def advancing_frequencies : List String :=
  ["daily", "weekly", "everyOtherWeek", "every4Weeks", "twiceAMonth", "monthly",
   "everyOtherMonth", "every3Months", "every4Months", "twiceAYear", "yearly",
   "everyOtherYear"]

theorem advance_date_eq_none {frequency : String}
    (h : frequency ∉ advancing_frequencies) (current : Date) :
    advance_date current frequency = none := by
  simp only [advancing_frequencies, List.mem_cons, List.not_mem_nil, or_false,
    not_or] at h
  obtain ⟨h1, h2, h3, h4, h5, h6, h7, h8, h9, h10, h11, h12⟩ := h
  by_cases hn : frequency = "never" <;>
    simp [advance_date, hn, h1, h2, h3, h4, h5, h6, h7, h8, h9, h10, h11, h12]

/-- The `while` loop of `occurrences_within_window`: yield the cursor while it
is at most `cutoff` (only when it is not before `today`), advancing with
`advance_date`; stop when advancing yields nothing or fails to move strictly
forward.  The function is total: each recursive step strictly increases the
cursor's ordinal while it stays bounded by the cutoff's ordinal. -/
def occ_loop (today cutoff : Date) (frequency : String) (current : Date) :
    List Date :=
  if hc : current ≤ cutoff then
    match advance_date current frequency with
    | none => if today ≤ current then [current] else []
    | some next =>
      if hn : next ≤ current then (if today ≤ current then [current] else [])
      else
        (if today ≤ current then [current] else []) ++
          occ_loop today cutoff frequency next
  else []
termination_by cutoff.toOrdinal + 1 - current.toOrdinal
decreasing_by
  have h1 : current.toOrdinal ≤ cutoff.toOrdinal := Date.toOrdinal_le_iff.mpr hc
  have h2 : current < next := Date.not_le_iff.mp hn
  have h3 := Date.toOrdinal_lt_of_lt h2
  omega

/-- Python `occurrences_within_window`.  The reference date `today`
(`date.today()` in Python) is passed explicitly. -/
def occurrences_within_window (today start : Date) (frequency : String)
    (max_days : Nat) : List Date :=
  occ_loop today (addDays today max_days) frequency start

theorem occ_loop_of_not_le {today cutoff : Date} {frequency : String}
    {current : Date} (hc : ¬ current ≤ cutoff) :
    occ_loop today cutoff frequency current = [] := by
  rw [occ_loop.eq_def, dif_neg hc]

theorem occ_loop_of_none {today cutoff : Date} {frequency : String}
    {current : Date} (hc : current ≤ cutoff)
    (h : advance_date current frequency = none) :
    occ_loop today cutoff frequency current
      = if today ≤ current then [current] else [] := by
  rw [occ_loop.eq_def, dif_pos hc, h]

theorem occ_loop_of_stall {today cutoff : Date} {frequency : String}
    {current next : Date} (hc : current ≤ cutoff)
    (h : advance_date current frequency = some next) (hn : next ≤ current) :
    occ_loop today cutoff frequency current
      = if today ≤ current then [current] else [] := by
  rw [occ_loop.eq_def, dif_pos hc, h]
  exact dif_pos hn

theorem occ_loop_of_advance {today cutoff : Date} {frequency : String}
    {current next : Date} (hc : current ≤ cutoff)
    (h : advance_date current frequency = some next) (hn : ¬ next ≤ current) :
    occ_loop today cutoff frequency current
      = (if today ≤ current then [current] else []) ++
          occ_loop today cutoff frequency next := by
  rw [occ_loop.eq_def, dif_pos hc, h]
  exact dif_neg hn

theorem occ_loop_mem (today cutoff : Date) (frequency : String) :
    ∀ (current : Date), ∀ d ∈ occ_loop today cutoff frequency current,
      today ≤ d ∧ d ≤ cutoff ∧ current ≤ d := by
  refine occ_loop.induct today cutoff frequency
    (fun current => ∀ d ∈ occ_loop today cutoff frequency current,
      today ≤ d ∧ d ≤ cutoff ∧ current ≤ d) ?h1 ?h2 ?h3 ?h4 ?h5 ?h6
  case h1 =>
    intro x hx hnone ht d hd
    rw [occ_loop_of_none hx hnone, if_pos ht] at hd
    simp only [List.mem_singleton] at hd
    subst hd
    exact ⟨ht, hx, Or.inr rfl⟩
  case h2 =>
    intro x hx hnone ht d hd
    rw [occ_loop_of_none hx hnone, if_neg ht] at hd
    simp at hd
  case h3 =>
    intro x hx next hsome hstall ht d hd
    rw [occ_loop_of_stall hx hsome hstall, if_pos ht] at hd
    simp only [List.mem_singleton] at hd
    subst hd
    exact ⟨ht, hx, Or.inr rfl⟩
  case h4 =>
    intro x hx next hsome hstall ht d hd
    rw [occ_loop_of_stall hx hsome hstall, if_neg ht] at hd
    simp at hd
  case h5 =>
    intro x hx next hsome hstep ih d hd
    rw [occ_loop_of_advance hx hsome hstep] at hd
    rcases List.mem_append.mp hd with hd | hd
    · rcases Decidable.em (today ≤ x) with ht | ht
      · rw [if_pos ht] at hd
        simp only [List.mem_singleton] at hd
        subst hd
        exact ⟨ht, hx, Or.inr rfl⟩
      · rw [if_neg ht] at hd
        simp at hd
    · obtain ⟨h1, h2, h3⟩ := ih d hd
      have hxn : x < next := Date.not_le_iff.mp hstep
      exact ⟨h1, h2, Date.le_of_lt' (Date.lt_of_lt_of_le' hxn h3)⟩
  case h6 =>
    intro x hx d hd
    rw [occ_loop_of_not_le hx] at hd
    simp at hd

theorem occ_loop_sorted (today cutoff : Date) (frequency : String) :
    ∀ (current : Date), (occ_loop today cutoff frequency current).Pairwise (· < ·) := by
  refine occ_loop.induct today cutoff frequency
    (fun current => (occ_loop today cutoff frequency current).Pairwise (· < ·))
    ?h1 ?h2 ?h3 ?h4 ?h5 ?h6
  case h1 =>
    intro x hx hnone ht
    rw [occ_loop_of_none hx hnone, if_pos ht]
    simp
  case h2 =>
    intro x hx hnone ht
    rw [occ_loop_of_none hx hnone, if_neg ht]
    simp
  case h3 =>
    intro x hx next hsome hstall ht
    rw [occ_loop_of_stall hx hsome hstall, if_pos ht]
    simp
  case h4 =>
    intro x hx next hsome hstall ht
    rw [occ_loop_of_stall hx hsome hstall, if_neg ht]
    simp
  case h5 =>
    intro x hx next hsome hstep ih
    rw [occ_loop_of_advance hx hsome hstep]
    refine List.pairwise_append.mpr ⟨?_, ih, ?_⟩
    · split <;> simp
    · intro a ha b hb
      rcases Decidable.em (today ≤ x) with ht | ht
      · rw [if_pos ht] at ha
        simp only [List.mem_singleton] at ha
        subst ha
        have hxn : a < next := Date.not_le_iff.mp hstep
        obtain ⟨_, _, h3⟩ := occ_loop_mem today cutoff frequency next b hb
        exact Date.lt_of_lt_of_le' hxn h3
      · rw [if_neg ht] at ha
        simp at ha
  case h6 =>
    intro x hx
    rw [occ_loop_of_not_le hx]
    simp

/-- Ordering of occurrence pairs by date (`key=lambda item: item[0]`). -/
def occ_le (p q : Date × Int) : Prop := p.1 ≤ q.1

instance occ_le_dec : DecidableRel occ_le := fun p q => Date.decLe p.1 q.1

instance occ_le_total : IsTotal (Date × Int) occ_le :=
  ⟨fun p q => Date.le_total' p.1 q.1⟩

instance occ_le_trans : IsTrans (Date × Int) occ_le :=
  ⟨fun _ _ _ h1 h2 => Date.le_trans' h1 h2⟩

/-- The loop of `calc_projection`: thread the running balance and the first
recorded drop date through the occurrence list, stopping at the first
occurrence past the cutoff. -/
def calc_loop (cutoff : Date) : List (Date × Int) → Int → Option Date → Int × Option Date
  | [], projected, drop_date => (projected, drop_date)
  | (when, amount) :: rest, projected, drop_date =>
    if cutoff < when then (projected, drop_date)
    else
      calc_loop cutoff rest (projected + amount)
        (if projected + amount < 0 ∧ drop_date = none then some when else drop_date)

/-- Python `calc_projection`. -/
def calc_projection (acct_occurrences : List (Date × Int)) (balance : Int)
    (cutoff : Date) : Int × Option Date :=
  calc_loop cutoff acct_occurrences balance none

/-- Reference function, from the claim's words: the date of the first
occurrence at which the running balance, started from `balance`, becomes
strictly negative. -/
def first_drop (balance : Int) : List (Date × Int) → Option Date
  | [] => none
  | (when, amount) :: rest =>
    if balance + amount < 0 then some when else first_drop (balance + amount) rest

/-- A YNAB scheduled transaction, as consumed by `build_occurrences`:
`scheduled_subtransactions` holds the sub-amounts (only the amounts matter). -/
structure Schedule where
  account_id : String
  amount : Int
  scheduled_subtransactions : List Int
  date_next : Date
  frequency : String

/-- The per-occurrence amount of a schedule: the sub-amount sum when
sub-transactions are present (a truthy, i.e. non-empty, list), else the
schedule's own amount. -/
def schedule_amount (txn : Schedule) : Int :=
  if txn.scheduled_subtransactions ≠ [] then txn.scheduled_subtransactions.sum
  else txn.amount

/-- The occurrences one schedule contributes in `build_occurrences`: skip
schedules with a falsy (empty) account id, skip zero net amounts, and drop
any occurrence before `today`. -/
def schedule_occurrences (today : Date) (max_window : Nat) (txn : Schedule) :
    List (Date × Int) :=
  if txn.account_id = "" then []
  else if schedule_amount txn = 0 then []
  else
    ((occurrences_within_window today txn.date_next txn.frequency max_window).filter
        fun occurrence => ¬ occurrence < today).map
      fun occurrence => (occurrence, schedule_amount txn)

/-- Python `build_occurrences`, as the account-id → occurrence-list map it
returns (a missing key reads as `[]`).  Per account the Python dict gathers
occurrences in schedule order and then sorts them stably by date
(`list.sort(key=item[0])`), modelled by the stable `List.insertionSort`. -/
def build_occurrences (scheduled : List Schedule) (max_window : Nat)
    (today : Date) : String → List (Date × Int) :=
  fun account_id =>
    List.insertionSort occ_le
      (((scheduled.filter fun txn => txn.account_id = account_id).map
          (schedule_occurrences today max_window)).flatten)

/-- A YNAB account as the core consumes it (closed/deleted filtered upstream);
`atype` is the Python dict's `"type"` key. -/
structure Account where
  id : String
  name : String
  atype : String
  on_budget : Bool
  balance : Int
deriving DecidableEq

def non_cash_types : List String :=
  ["creditCard", "lineOfCredit", "mortgage", "autoLoan", "studentLoan",
   "personalLoan", "medicalDebt", "otherDebt", "otherLiability"]

/-- Python `is_cash_account`. -/
def is_cash_account (account : Account) : Bool :=
  if account.atype ∈ non_cash_types then false else account.on_budget

structure RiskEntry where
  name : String
  projected : Int
  current : Int
  window : Nat
  drop_date : Date
deriving DecidableEq

/-- Severity order of risk entries: ascending projected balance
(`key=lambda entry: entry["projected"]`). -/
def risk_le (a b : RiskEntry) : Prop := a.projected ≤ b.projected

instance risk_le_dec : DecidableRel risk_le := fun a b =>
  decidable_of_iff (a.projected ≤ b.projected) Iff.rfl

instance risk_le_total : IsTotal RiskEntry risk_le := ⟨fun a b => le_total _ _⟩

instance risk_le_trans : IsTrans RiskEntry risk_le :=
  ⟨fun _ _ _ h1 h2 => le_trans h1 h2⟩

/-- Python `compute_risk`, keyed by the sorted deduplicated windows.  The
Python loop iterates accounts on the outside and appends to each window's
list, so per window the entries accumulate in account order: that is the
`filterMap` below.  The final per-window stable `list.sort` is modelled by
the stable `List.insertionSort`. -/
def compute_risk (accounts : List Account)
    (occurrences : String → List (Date × Int)) (windows : List Nat)
    (today : Date) : List (Nat × List RiskEntry) :=
  (List.insertionSort (· ≤ ·) windows.dedup).map fun win =>
    (win,
      List.insertionSort risk_le
        (accounts.filterMap fun account =>
          if ¬ is_cash_account account then none
          else if occurrences account.id = [] then none
          else
            match calc_projection (occurrences account.id) account.balance
                (addDays today win) with
            | (projected, some dd) =>
                some ⟨account.name, projected, account.balance, win, dd⟩
            | (_, none) => none))

/-- A surplus entry: the classification dict with its mutable `available`. -/
structure Surplus where
  id : String
  name : String
  available : Int
deriving DecidableEq

/-- A deficit entry; `drop_date` is always a date because the classification
replaces a missing drop date by `today` (`drop_date or today`). -/
structure Deficit where
  id : String
  name : String
  need : Int
  drop_date : Date
deriving DecidableEq

/-- A proposed transfer; `src`/`dst` are the Python dict's `"from"`/`"to"`
account names. -/
structure Move where
  src : String
  dst : String
  amount : Int
  cover_drop : Date
deriving DecidableEq

structure UncoveredGroup where
  drop_date : Date
  need : Int
  available : Int
  accounts : List Deficit
deriving DecidableEq

/-- `sum(s["available"] for s in surpluses if s["available"] > 0)` -/
def available_pool (surpluses : List Surplus) : Int :=
  ((surpluses.filter fun s => 0 < s.available).map Surplus.available).sum

/-- `sum(d["need"] for d in group if d["need"] > 0)` -/
def total_need (group : List Deficit) : Int :=
  ((group.filter fun d => 0 < d.need).map Deficit.need).sum

/-- The innermost loop of `compute_transfers`: draw `remaining` for deficit
`d` from the surplus sources in order, splitting across sources, emitting one
move per drawn source and decreasing that source's `available`. -/
def draw_from (d : Deficit) : List Surplus → Int → List Surplus × List Move
  | [], _ => ([], [])
  | s :: rest, remaining =>
    if remaining ≤ 0 then (s :: rest, [])
    else if s.available ≤ 0 then
      (s :: (draw_from d rest remaining).1, (draw_from d rest remaining).2)
    else if min remaining s.available ≤ 0 then
      (s :: (draw_from d rest remaining).1, (draw_from d rest remaining).2)
    else
      ({ s with available := s.available - min remaining s.available }
          :: (draw_from d rest (remaining - min remaining s.available)).1,
       ⟨s.name, d.name, min remaining s.available, d.drop_date⟩
          :: (draw_from d rest (remaining - min remaining s.available)).2)

/-- `for alloc, deficit in zip(allocations, group): ...` — execute the
allocations against the shared surplus list. -/
def exec_allocations (surpluses : List Surplus) :
    List (Int × Deficit) → List Surplus × List Move
  | [] => (surpluses, [])
  | (alloc, d) :: rest =>
    if alloc ≤ 0 then exec_allocations surpluses rest
    else
      ((exec_allocations (draw_from d surpluses alloc).1 rest).1,
       (draw_from d surpluses alloc).2 ++
         (exec_allocations (draw_from d surpluses alloc).1 rest).2)

/-- Descending-by-need order of the indexed group, used for remainder
distribution: `sorted(enumerate(group), key=lambda item: item[1]["need"],
reverse=True)` (stable). -/
def need_ge (a b : Nat × Deficit) : Prop := b.2.need ≤ a.2.need

instance need_ge_dec : DecidableRel need_ge := fun a b =>
  decidable_of_iff (b.2.need ≤ a.2.need) Iff.rfl

def remainder_order (group : List Deficit) : List (Nat × Deficit) :=
  List.insertionSort need_ge ((List.range group.length).zip group)

/-- One step of the remainder-distribution loop, acting on the allocation
list and the remainder (the Python loop's `break` once the remainder is gone
behaves as skipping the remaining iterations). -/
def distribute_step (state : List Int × Int) (item : Nat × Deficit) :
    List Int × Int :=
  if state.2 ≤ 0 then state
  else
    let room := item.2.need - state.1.getD item.1 0
    if room ≤ 0 then state
    else
      let extra := min room state.2
      (state.1.set item.1 (state.1.getD item.1 0 + extra), state.2 - extra)

def distribute_remainder (allocations : List Int) (group : List Deficit)
    (remainder : Int) : List Int :=
  ((remainder_order group).foldl distribute_step (allocations, remainder)).1

/-- One iteration of the grouping `while` loop of `compute_transfers`: resolve
one drop-date group against the current surplus pool, returning the updated
surplus list, the moves emitted for the group, and the uncovered record (if
any).  `(allocatable * need).fdiv total` is Python's floor division `//`. -/
def process_group (surpluses : List Surplus) (drop_date : Date)
    (group : List Deficit) : List Surplus × List Move × List UncoveredGroup :=
  let pool := available_pool surpluses
  let need := total_need group
  if pool ≤ 0 ∨ need ≤ 0 then
    (surpluses, [], if 0 < need then [⟨drop_date, need, pool, group⟩] else [])
  else if pool < need then
    (surpluses, [], [⟨drop_date, need, pool, group⟩])
  else
    let allocatable := min pool need
    let allocations0 := group.map fun d => min d.need ((allocatable * d.need).fdiv need)
    let allocations :=
      distribute_remainder allocations0 group (allocatable - allocations0.sum)
    let res := exec_allocations surpluses (allocations.zip group)
    (res.1, res.2, [])

/-- Maximal runs of consecutive deficits sharing a drop date: the grouping the
index-based `while` loop performs on the date-sorted deficit list. -/
def deficit_groups : List Deficit → List (List Deficit)
  | [] => []
  | d :: rest =>
    match deficit_groups rest with
    | [] => [[d]]
    | [] :: gs => [d] :: [] :: gs
    | (e :: g) :: gs =>
      if d.drop_date = e.drop_date then (d :: e :: g) :: gs
      else [d] :: (e :: g) :: gs

/-- Process the deficit groups in order, threading the shared surplus list. -/
def group_fold (surpluses : List Surplus) :
    List (List Deficit) → List Move × List UncoveredGroup
  | [] => ([], [])
  | [] :: gs => group_fold surpluses gs
  | (d :: g) :: gs =>
    ((process_group surpluses d.drop_date (d :: g)).2.1 ++
       (group_fold (process_group surpluses d.drop_date (d :: g)).1 gs).1,
     (process_group surpluses d.drop_date (d :: g)).2.2 ++
       (group_fold (process_group surpluses d.drop_date (d :: g)).1 gs).2)

/-- The classification loop of `compute_transfers`: positive projection at the
cutoff → surplus, negative → deficit (`drop_date or today` when no crossing
was detected). -/
def classify (accounts : List Account)
    (occurrences : String → List (Date × Int)) (cutoff today : Date) :
    List Surplus × List Deficit :=
  match accounts with
  | [] => ([], [])
  | account :: rest =>
    if ¬ is_cash_account account then classify rest occurrences cutoff today
    else if 0 < (calc_projection (occurrences account.id) account.balance cutoff).1 then
      (⟨account.id, account.name,
          (calc_projection (occurrences account.id) account.balance cutoff).1⟩ ::
        (classify rest occurrences cutoff today).1,
       (classify rest occurrences cutoff today).2)
    else if (calc_projection (occurrences account.id) account.balance cutoff).1 < 0 then
      ((classify rest occurrences cutoff today).1,
       ⟨account.id, account.name,
          -(calc_projection (occurrences account.id) account.balance cutoff).1,
          ((calc_projection (occurrences account.id) account.balance cutoff).2).getD
            today⟩ ::
        (classify rest occurrences cutoff today).2)
    else classify rest occurrences cutoff today

/-- Descending order of surpluses by available amount
(`sort(key=available, reverse=True)`, stable). -/
def surplus_ge (a b : Surplus) : Prop := b.available ≤ a.available

instance surplus_ge_dec : DecidableRel surplus_ge := fun a b =>
  decidable_of_iff (b.available ≤ a.available) Iff.rfl

/-- Order of deficits: ascending drop date, ties by descending need
(`key=lambda d: (d["drop_date"] or cutoff, -d["need"])`; the drop date is
always set, so the `or cutoff` default never applies). -/
def deficit_order (a b : Deficit) : Prop :=
  a.drop_date < b.drop_date ∨ (a.drop_date = b.drop_date ∧ b.need ≤ a.need)

instance deficit_order_dec : DecidableRel deficit_order := fun a b =>
  decidable_of_iff
    (a.drop_date < b.drop_date ∨ (a.drop_date = b.drop_date ∧ b.need ≤ a.need))
    Iff.rfl

/-- Python `compute_transfers`; `today` is the ambient `date.today()`, passed
explicitly.  The stable `list.sort` calls are modelled by the stable
`List.insertionSort`, and the index-based grouping `while` loop by
`deficit_groups`/`group_fold`. -/
def compute_transfers (accounts : List Account)
    (occurrences : String → List (Date × Int)) (windows : List Nat)
    (today : Date) : List Move × List UncoveredGroup :=
  if windows = [] then ([], [])
  else
    let cutoff := addDays today (windows.foldl max 0)
    let res := classify accounts occurrences cutoff today
    group_fold (List.insertionSort surplus_ge res.1)
      (deficit_groups (List.insertionSort deficit_order res.2))

theorem calc_loop_sorted_eq (cutoff : Date) :
    ∀ (occ : List (Date × Int)) (b : Int) (dd : Option Date),
      occ.Pairwise occ_le →
      calc_loop cutoff occ b dd =
        (b + ((occ.filter fun p => p.1 ≤ cutoff).map Prod.snd).sum,
         match dd with
         | some x => some x
         | none => first_drop b (occ.filter fun p => p.1 ≤ cutoff)) := by
  intro occ
  induction occ with
  | nil =>
      intro b dd _
      cases dd <;> simp [calc_loop, first_drop]
  | cons hd tl ih =>
      intro b dd hsort
      obtain ⟨when, amount⟩ := hd
      rw [List.pairwise_cons] at hsort
      obtain ⟨hall, htl⟩ := hsort
      by_cases hcut : cutoff < when
      · have hnle : ¬ when ≤ cutoff := by
          rw [Date.not_le_iff]
          exact hcut
        have hfilter : (((when, amount) :: tl).filter fun p => p.1 ≤ cutoff) = [] := by
          rw [List.filter_eq_nil_iff]
          intro p hp
          rcases List.mem_cons.mp hp with rfl | hp
          · simpa using hnle
          · have := hall p hp
            simp only [decide_eq_true_eq]
            intro hle
            exact hnle (Date.le_trans' this hle)
        rw [show calc_loop cutoff ((when, amount) :: tl) b dd = (b, dd) from by
          rw [calc_loop, if_pos hcut]]
        rw [hfilter]
        cases dd <;> simp [first_drop]
      · have hle : when ≤ cutoff := by
          by_contra hcon
          exact hcut (Date.not_le_iff.mp hcon)
        have hfilter : (((when, amount) :: tl).filter fun p => p.1 ≤ cutoff)
            = (when, amount) :: (tl.filter fun p => p.1 ≤ cutoff) := by
          simp [List.filter_cons, hle]
        rw [show calc_loop cutoff ((when, amount) :: tl) b dd
            = calc_loop cutoff tl (b + amount)
                (if b + amount < 0 ∧ dd = none then some when else dd) from by
          rw [calc_loop, if_neg hcut]]
        rw [ih _ _ htl, hfilter]
        cases dd with
        | some x =>
            simp only [reduceCtorEq, and_false, if_false, List.map_cons,
              List.sum_cons, Prod.mk.injEq]
            exact ⟨by omega, trivial⟩
        | none =>
            by_cases hneg : b + amount < 0
            · simp only [hneg, true_and, if_pos, first_drop, List.map_cons,
                List.sum_cons, Prod.mk.injEq]
              refine ⟨by omega, ?_⟩
              simp [first_drop, hneg]
            · simp only [hneg, false_and, if_false, List.map_cons,
                List.sum_cons, Prod.mk.injEq]
              refine ⟨by omega, ?_⟩
              simp [first_drop, hneg]

theorem occurrences_of_none (today start : Date) (frequency : String)
    (max_days : Nat) (h : advance_date start frequency = none) :
    occurrences_within_window today start frequency max_days
      = if today ≤ start ∧ start ≤ addDays today max_days then [start] else [] := by
  unfold occurrences_within_window
  by_cases hc : start ≤ addDays today max_days
  · rw [occ_loop_of_none hc h]
    by_cases ht : today ≤ start <;> simp [ht, hc]
  · rw [occ_loop_of_not_le hc]
    simp [hc]

theorem schedule_occurrences_mem (today : Date) (max_window : Nat)
    (txn : Schedule) :
    ∀ p ∈ schedule_occurrences today max_window txn,
      today ≤ p.1 ∧ p.1 ≤ addDays today max_window := by
  intro p hp
  unfold schedule_occurrences at hp
  split at hp
  · simp at hp
  split at hp
  · simp at hp
  simp only [List.mem_map] at hp
  obtain ⟨d, hd, rfl⟩ := hp
  have hd' := List.mem_of_mem_filter hd
  rw [occurrences_within_window] at hd'
  obtain ⟨h1, h2, _⟩ :=
    occ_loop_mem today (addDays today max_window) txn.frequency txn.date_next d hd'
  exact ⟨h1, h2⟩

theorem build_occurrences_mem (scheduled : List Schedule) (max_window : Nat)
    (today : Date) (account_id : String) :
    ∀ p ∈ build_occurrences scheduled max_window today account_id,
      today ≤ p.1 ∧ p.1 ≤ addDays today max_window := by
  intro p hp
  unfold build_occurrences at hp
  have hp' := (List.perm_insertionSort occ_le _).mem_iff.mp hp
  rw [List.mem_flatten] at hp'
  obtain ⟨l, hl, hpl⟩ := hp'
  rw [List.mem_map] at hl
  obtain ⟨txn, _, rfl⟩ := hl
  exact schedule_occurrences_mem _ _ _ p hpl

theorem filterMap_filter_of_none {α β : Type} (p : α → Bool) (f : α → Option β)
    (h : ∀ a, p a = false → f a = none) :
    ∀ l : List α, (l.filter p).filterMap f = l.filterMap f := by
  intro l
  induction l with
  | nil => rfl
  | cons a t ih =>
      cases hp : p a
      · rw [List.filter_cons, hp]
        simp only [Bool.false_eq_true, if_false]
        rw [List.filterMap_cons, h a hp]
        exact ih
      · rw [List.filter_cons, hp]
        simp only [if_true]
        rw [List.filterMap_cons, List.filterMap_cons]
        cases f a <;> simp [ih]

/-- How one allocation pass may change a surplus entry: same account, the
available amount only drawn down, and never driven below zero. -/
def drawn_down (s s' : Surplus) : Prop :=
  s'.id = s.id ∧ s'.name = s.name ∧ s'.available ≤ s.available ∧
    (0 ≤ s.available → 0 ≤ s'.available)

theorem drawn_down_refl (s : Surplus) : drawn_down s s :=
  ⟨rfl, rfl, le_refl _, fun h => h⟩

theorem forall₂_drawn_down_refl (l : List Surplus) : List.Forall₂ drawn_down l l :=
  List.forall₂_same.mpr fun s _ => drawn_down_refl s

theorem forall₂_drawn_down_trans :
    ∀ {a b c : List Surplus}, List.Forall₂ drawn_down a b →
      List.Forall₂ drawn_down b c → List.Forall₂ drawn_down a c := by
  intro a b c hab
  induction hab generalizing c with
  | nil =>
      intro h
      cases h
      exact List.Forall₂.nil
  | cons h t ih =>
      intro hbc
      cases hbc with
      | cons h2 t2 =>
          refine List.Forall₂.cons ?_ (ih t2)
          obtain ⟨i1, n1, a1, z1⟩ := h
          obtain ⟨i2, n2, a2, z2⟩ := h2
          exact ⟨i2.trans i1, n2.trans n1, a2.trans a1, fun hz => z2 (z1 hz)⟩

theorem forall₂_drawn_down_names {a b : List Surplus}
    (h : List.Forall₂ drawn_down a b) :
    b.map Surplus.name = a.map Surplus.name := by
  induction h with
  | nil => rfl
  | cons hd _ ih =>
      simp only [List.map_cons, ih, hd.2.1]

theorem available_pool_nil : available_pool [] = 0 := rfl

theorem available_pool_cons (s : Surplus) (l : List Surplus) :
    available_pool (s :: l)
      = (if 0 < s.available then s.available else 0) + available_pool l := by
  unfold available_pool
  by_cases h : 0 < s.available <;> simp [List.filter_cons, h]

theorem available_pool_nonneg : ∀ l : List Surplus, 0 ≤ available_pool l := by
  intro l
  induction l with
  | nil => simp [available_pool_nil]
  | cons s rest ih =>
      rw [available_pool_cons]
      split <;> omega

theorem draw_from_surpluses_down (d : Deficit) :
    ∀ (surpluses : List Surplus) (remaining : Int),
      List.Forall₂ drawn_down surpluses (draw_from d surpluses remaining).1 := by
  intro surpluses
  induction surpluses with
  | nil =>
      intro r
      exact List.Forall₂.nil
  | cons s rest ih =>
      intro r
      rw [draw_from]
      split
      · exact forall₂_drawn_down_refl _
      split
      · exact List.Forall₂.cons (drawn_down_refl s) (ih r)
      split
      · exact List.Forall₂.cons (drawn_down_refl s) (ih r)
      · rename_i h1 h2 h3
        refine List.Forall₂.cons ⟨rfl, rfl, ?_, ?_⟩ (ih _)
        · simp only
          omega
        · intro hz
          simp only
          omega

theorem draw_from_moves (d : Deficit) :
    ∀ (surpluses : List Surplus) (remaining : Int),
      ∀ m ∈ (draw_from d surpluses remaining).2,
        0 < m.amount ∧ m.dst = d.name ∧ m.cover_drop = d.drop_date ∧
          m.src ∈ surpluses.map Surplus.name := by
  intro surpluses
  induction surpluses with
  | nil =>
      intro r m hm
      simp [draw_from] at hm
  | cons s rest ih =>
      intro r m hm
      rw [draw_from] at hm
      split at hm
      · simp at hm
      split at hm
      · obtain ⟨h1, h2, h3, h4⟩ := ih r m hm
        exact ⟨h1, h2, h3, by simp [h4]⟩
      split at hm
      · obtain ⟨h1, h2, h3, h4⟩ := ih r m hm
        exact ⟨h1, h2, h3, by simp [h4]⟩
      · rename_i h1 h2 h3
        rcases List.mem_cons.mp hm with rfl | hm
        · refine ⟨?_, rfl, rfl, by simp⟩
          show (0 : Int) < min r s.available
          omega
        · obtain ⟨g1, g2, g3, g4⟩ := ih _ m hm
          exact ⟨g1, g2, g3, by simp [g4]⟩

theorem draw_from_sum (d : Deficit) :
    ∀ (surpluses : List Surplus) (remaining : Int), 0 ≤ remaining →
      (((draw_from d surpluses remaining).2.map Move.amount).sum
          = min remaining (available_pool surpluses)
        ∧ available_pool (draw_from d surpluses remaining).1
          = available_pool surpluses - min remaining (available_pool surpluses)) := by
  intro surpluses
  induction surpluses with
  | nil =>
      intro r hr
      have : available_pool ([] : List Surplus) = 0 := rfl
      simp [draw_from, this]
      omega
  | cons s rest ih =>
      intro r hr
      have hpool := available_pool_nonneg rest
      rw [draw_from]
      split
      · rename_i h1
        have hp := available_pool_nonneg (s :: rest)
        constructor
        · simp
          omega
        · simp
          omega
      split
      · rename_i h1 h2
        have hcons : available_pool (s :: rest) = available_pool rest := by
          rw [available_pool_cons, if_neg (by omega)]
          omega
        obtain ⟨ih1, ih2⟩ := ih r hr
        constructor
        · simp only
          rw [ih1, hcons]
        · rw [available_pool_cons, if_neg (by omega), ih2, hcons]
          omega
      split
      · rename_i h1 h2 h3
        omega
      · rename_i h1 h2 h3
        have hcons : available_pool (s :: rest)
            = s.available + available_pool rest := by
          rw [available_pool_cons, if_pos (by omega)]
        obtain ⟨ih1, ih2⟩ := ih (r - min r s.available) (by omega)
        constructor
        · simp only [List.map_cons, List.sum_cons]
          rw [ih1, hcons]
          omega
        · have hrec :
              ({ s with available := s.available - min r s.available } : Surplus).available
                = s.available - min r s.available := rfl
          rw [available_pool_cons, hrec, ih2, hcons]
          split <;> omega

theorem exec_allocations_props :
    ∀ (pairs : List (Int × Deficit)) (surpluses : List Surplus),
      List.Forall₂ drawn_down surpluses (exec_allocations surpluses pairs).1
      ∧ ∀ m ∈ (exec_allocations surpluses pairs).2,
          0 < m.amount ∧ m.src ∈ surpluses.map Surplus.name
          ∧ ∃ p ∈ pairs, m.dst = p.2.name ∧ m.cover_drop = p.2.drop_date := by
  intro pairs
  induction pairs with
  | nil =>
      intro surpluses
      refine ⟨forall₂_drawn_down_refl _, ?_⟩
      intro m hm
      simp [exec_allocations] at hm
  | cons pd rest ih =>
      intro surpluses
      obtain ⟨alloc, d⟩ := pd
      rw [exec_allocations]
      split
      · obtain ⟨ihA, ihB⟩ := ih surpluses
        refine ⟨ihA, ?_⟩
        intro m hm
        obtain ⟨h1, h2, p, hp, h3⟩ := ihB m hm
        exact ⟨h1, h2, p, List.mem_cons_of_mem _ hp, h3⟩
      · obtain ⟨ihA, ihB⟩ := ih (draw_from d surpluses alloc).1
        have hdown := draw_from_surpluses_down d surpluses alloc
        refine ⟨forall₂_drawn_down_trans hdown ihA, ?_⟩
        intro m hm
        rcases List.mem_append.mp hm with hm | hm
        · obtain ⟨h1, h2, h3, h4⟩ := draw_from_moves d surpluses alloc m hm
          exact ⟨h1, h4, (alloc, d), List.mem_cons_self _ _, h2, h3⟩
        · obtain ⟨h1, h2, p, hp, h3⟩ := ihB m hm
          rw [forall₂_drawn_down_names hdown] at h2
          exact ⟨h1, h2, p, List.mem_cons_of_mem _ hp, h3⟩

/-- Sum of the strictly-positive allocations of an allocation/deficit pairing. -/
def pos_alloc_sum (pairs : List (Int × Deficit)) : Int :=
  ((pairs.filter fun p => 0 < p.1).map Prod.fst).sum

theorem pos_alloc_sum_cons (p : Int × Deficit) (l : List (Int × Deficit)) :
    pos_alloc_sum (p :: l) = (if 0 < p.1 then p.1 else 0) + pos_alloc_sum l := by
  unfold pos_alloc_sum
  by_cases h : 0 < p.1 <;> simp [List.filter_cons, h]

theorem pos_alloc_sum_nonneg : ∀ pairs, 0 ≤ pos_alloc_sum pairs := by
  intro pairs
  induction pairs with
  | nil => exact le_refl _
  | cons p l ih =>
      rw [pos_alloc_sum_cons]
      split <;> omega

theorem exec_allocations_sum :
    ∀ (pairs : List (Int × Deficit)) (surpluses : List Surplus),
      pos_alloc_sum pairs ≤ available_pool surpluses →
      ∃ mss : List (List Move),
        (exec_allocations surpluses pairs).2 = mss.flatten
        ∧ List.Forall₂ (fun (p : Int × Deficit) ms =>
            (∀ m ∈ ms, m.dst = p.2.name ∧ m.cover_drop = p.2.drop_date)
            ∧ (ms.map Move.amount).sum = (if 0 < p.1 then p.1 else 0)) pairs mss
        ∧ available_pool (exec_allocations surpluses pairs).1
            = available_pool surpluses - pos_alloc_sum pairs := by
  intro pairs
  induction pairs with
  | nil =>
      intro surpluses _
      refine ⟨[], by simp [exec_allocations], List.Forall₂.nil, ?_⟩
      have hz : pos_alloc_sum [] = 0 := rfl
      simp [exec_allocations, hz]
  | cons pd rest ih =>
      intro surpluses hle
      obtain ⟨alloc, d⟩ := pd
      rw [pos_alloc_sum_cons] at hle
      rw [exec_allocations]
      split
      · rename_i h0
        have hzero : ¬ (0 : Int) < alloc := by omega
        rw [if_neg hzero] at hle
        obtain ⟨mss, hA, hB, hC⟩ := ih surpluses (by omega)
        refine ⟨[] :: mss, by simpa using hA,
          List.Forall₂.cons ⟨by simp, by rw [if_neg hzero]; simp⟩ hB, ?_⟩
        rw [hC, pos_alloc_sum_cons, if_neg hzero]
        omega
      · rename_i h0
        have hpos : (0 : Int) < alloc := by omega
        rw [if_pos hpos] at hle
        have hrestpos := pos_alloc_sum_nonneg rest
        have halle : alloc ≤ available_pool surpluses := by omega
        obtain ⟨hd1, hd2⟩ := draw_from_sum d surpluses alloc (by omega)
        rw [min_eq_left halle] at hd1 hd2
        obtain ⟨mss, hA, hB, hC⟩ := ih (draw_from d surpluses alloc).1 (by omega)
        refine ⟨(draw_from d surpluses alloc).2 :: mss, by simp [hA], ?_, ?_⟩
        · refine List.Forall₂.cons ⟨?_, by rw [hd1, if_pos hpos]⟩ hB
          intro m hm
          obtain ⟨_, h2, h3, _⟩ := draw_from_moves d surpluses alloc m hm
          exact ⟨h2, h3⟩
        · rw [hC, hd2, pos_alloc_sum_cons, if_pos hpos]
          omega

theorem mem_range_zip_getElem {α : Type} {l : List α} {i : Nat} {a : α}
    (h : (i, a) ∈ (List.range l.length).zip l) : l[i]? = some a := by
  obtain ⟨j, hj⟩ := List.mem_iff_getElem?.mp h
  obtain ⟨h1, h2⟩ := List.getElem?_zip_eq_some.mp hj
  obtain ⟨hjlen, _⟩ := List.getElem?_eq_some_iff.mp h2
  rw [List.getElem?_range hjlen] at h1
  injection h1 with h1
  subst h1
  exact h2

theorem distribute_foldl_id (group : List Deficit) :
    ∀ (pairs : List (Nat × Deficit)) (rem : Int),
      (∀ p ∈ pairs, group[p.1]? = some p.2) →
      pairs.foldl distribute_step (group.map Deficit.need, rem)
        = (group.map Deficit.need, rem) := by
  intro pairs
  induction pairs with
  | nil => intro rem _; rfl
  | cons p rest ih =>
      intro rem h
      have hp := h p (List.mem_cons_self _ _)
      have hgetD : (group.map Deficit.need).getD p.1 0 = p.2.need := by
        rw [List.getD_eq_getElem?_getD, List.getElem?_map, hp]
        rfl
      have hstep : distribute_step (group.map Deficit.need, rem) p
          = (group.map Deficit.need, rem) := by
        unfold distribute_step
        split
        · rfl
        · rw [if_pos]
          show p.2.need - (group.map Deficit.need).getD p.1 0 ≤ 0
          rw [hgetD]
          omega
      rw [List.foldl_cons, hstep]
      exact ih rem fun q hq => h q (List.mem_cons_of_mem _ hq)

theorem distribute_remainder_id (group : List Deficit) (rem : Int) :
    distribute_remainder (group.map Deficit.need) group rem
      = group.map Deficit.need := by
  unfold distribute_remainder
  rw [distribute_foldl_id group (remainder_order group) rem ?_]
  intro p hp
  have hmem := (List.perm_insertionSort need_ge _).mem_iff.mp hp
  obtain ⟨i, a⟩ := p
  exact mem_range_zip_getElem hmem

theorem map_zip_self {α β : Type} (f : α → β) :
    ∀ l : List α, (l.map f).zip l = l.map fun a => (f a, a) := by
  intro l
  induction l with
  | nil => rfl
  | cons a t ih => simp [ih]

theorem total_need_cons (d : Deficit) (l : List Deficit) :
    total_need (d :: l) = (if 0 < d.need then d.need else 0) + total_need l := by
  unfold total_need
  by_cases h : 0 < d.need <;> simp [List.filter_cons, h]

theorem total_need_nonneg : ∀ l : List Deficit, 0 ≤ total_need l := by
  intro l
  induction l with
  | nil => exact le_refl _
  | cons d rest ih =>
      rw [total_need_cons]
      split <;> omega

theorem pos_alloc_sum_map_need (group : List Deficit) :
    pos_alloc_sum (group.map fun d => (d.need, d)) = total_need group := by
  induction group with
  | nil => rfl
  | cons d rest ih =>
      rw [List.map_cons, pos_alloc_sum_cons, ih, total_need_cons]

theorem needs_sum_le_total_need (group : List Deficit) :
    (group.map Deficit.need).sum ≤ total_need group := by
  induction group with
  | nil => simp [total_need]
  | cons d rest ih =>
      rw [List.map_cons, List.sum_cons, total_need_cons]
      split <;> omega

theorem allocations_eq_needs (group : List Deficit) (need : Int) (hne : need ≠ 0) :
    (group.map fun d => min d.need ((need * d.need).fdiv need))
      = group.map Deficit.need := by
  apply List.map_congr_left
  intro d _
  rw [Int.mul_fdiv_cancel_left _ hne]
  exact min_self _

theorem process_group_uncovered_eq (surpluses : List Surplus) (dd : Date)
    (group : List Deficit) (hneed : 0 < total_need group)
    (hpool : available_pool surpluses < total_need group) :
    process_group surpluses dd group
      = (surpluses, [],
         [⟨dd, total_need group, available_pool surpluses, group⟩]) := by
  simp only [process_group]
  by_cases h0 : available_pool surpluses ≤ 0
  · rw [if_pos (Or.inl h0), if_pos hneed]
  · rw [if_neg (by omega :
        ¬ (available_pool surpluses ≤ 0 ∨ total_need group ≤ 0)),
      if_pos hpool]

theorem process_group_covered_eq (surpluses : List Surplus) (dd : Date)
    (group : List Deficit) (hneed : 0 < total_need group)
    (hpool : total_need group ≤ available_pool surpluses) :
    process_group surpluses dd group
      = ((exec_allocations surpluses (group.map fun d => (d.need, d))).1,
         (exec_allocations surpluses (group.map fun d => (d.need, d))).2, []) := by
  simp only [process_group]
  rw [if_neg (by omega :
      ¬ (available_pool surpluses ≤ 0 ∨ total_need group ≤ 0)),
    if_neg (by omega : ¬ available_pool surpluses < total_need group)]
  rw [min_eq_right hpool]
  rw [allocations_eq_needs group (total_need group) (by omega)]
  rw [distribute_remainder_id]
  rw [map_zip_self]

theorem forall₂_flatten_amount_sum :
    ∀ {pairs : List (Int × Deficit)} {mss : List (List Move)},
      List.Forall₂ (fun (p : Int × Deficit) ms =>
        (∀ m ∈ ms, m.dst = p.2.name ∧ m.cover_drop = p.2.drop_date)
        ∧ (ms.map Move.amount).sum = (if 0 < p.1 then p.1 else 0)) pairs mss →
      (mss.flatten.map Move.amount).sum = pos_alloc_sum pairs := by
  intro pairs mss h
  induction h with
  | nil => rfl
  | cons hd _ ih =>
      rw [List.flatten_cons, List.map_append, List.sum_append, ih,
        pos_alloc_sum_cons, hd.2]

theorem process_group_props (surpluses : List Surplus) (dd : Date)
    (group : List Deficit) :
    List.Forall₂ drawn_down surpluses (process_group surpluses dd group).1
    ∧ ∀ m ∈ (process_group surpluses dd group).2.1,
        0 < m.amount ∧ m.src ∈ surpluses.map Surplus.name
        ∧ m.dst ∈ group.map Deficit.name := by
  by_cases hc : 0 < total_need group ∧ total_need group ≤ available_pool surpluses
  · rw [process_group_covered_eq surpluses dd group hc.1 hc.2]
    obtain ⟨hA, hB⟩ := exec_allocations_props (group.map fun d => (d.need, d)) surpluses
    refine ⟨hA, ?_⟩
    intro m hm
    obtain ⟨h1, h2, p, hp, h3, _⟩ := hB m hm
    rw [List.mem_map] at hp
    obtain ⟨d0, hd0, rfl⟩ := hp
    refine ⟨h1, h2, ?_⟩
    have : m.dst = d0.name := h3
    rw [this]
    exact List.mem_map_of_mem Deficit.name hd0
  · by_cases hneed : 0 < total_need group
    · have hpool : available_pool surpluses < total_need group := by
        rcases not_and_or.mp hc with h | h
        · exact absurd hneed h
        · omega
      rw [process_group_uncovered_eq surpluses dd group hneed hpool]
      exact ⟨forall₂_drawn_down_refl _, by intro m hm; simp at hm⟩
    · simp only [process_group]
      rw [if_pos (Or.inr (by omega))]
      exact ⟨forall₂_drawn_down_refl _, by intro m hm; simp at hm⟩

theorem group_fold_moves :
    ∀ (gs : List (List Deficit)) (surpluses : List Surplus),
      ∀ m ∈ (group_fold surpluses gs).1,
        0 < m.amount ∧ m.src ∈ surpluses.map Surplus.name
        ∧ m.dst ∈ gs.flatten.map Deficit.name := by
  intro gs
  induction gs with
  | nil =>
      intro surpluses m hm
      simp [group_fold] at hm
  | cons g gs ih =>
      intro surpluses m hm
      cases g with
      | nil =>
          rw [group_fold] at hm
          obtain ⟨h1, h2, h3⟩ := ih surpluses m hm
          exact ⟨h1, h2, by simpa using h3⟩
      | cons d gtl =>
          rw [group_fold] at hm
          rcases List.mem_append.mp hm with hm | hm
          · obtain ⟨h1, h2, h3⟩ :=
              (process_group_props surpluses d.drop_date (d :: gtl)).2 m hm
            refine ⟨h1, h2, ?_⟩
            rw [List.flatten_cons, List.map_append]
            exact List.mem_append.mpr (Or.inl h3)
          · obtain ⟨h1, h2, h3⟩ :=
              ih (process_group surpluses d.drop_date (d :: gtl)).1 m hm
            refine ⟨h1, ?_, ?_⟩
            · rw [forall₂_drawn_down_names
                (process_group_props surpluses d.drop_date (d :: gtl)).1] at h2
              exact h2
            · rw [List.flatten_cons, List.map_append]
              exact List.mem_append.mpr (Or.inr h3)

theorem deficit_groups_flatten :
    ∀ l : List Deficit, (deficit_groups l).flatten = l := by
  intro l
  induction l with
  | nil => rfl
  | cons d rest ih =>
      rw [deficit_groups]
      rcases hdg : deficit_groups rest with _ | ⟨g, gs⟩
      · rw [hdg] at ih
        simp at ih
        simp [ih]
      · rw [hdg] at ih
        cases g with
        | nil =>
            simp only
            simp at ih
            simp [ih]
        | cons e gtl =>
            simp only
            split
            · rw [List.flatten_cons] at ih ⊢
              simp only [List.cons_append, ih]
            · simp at ih ⊢
              simp [ih]

theorem classify_mem (occurrences : String → List (Date × Int))
    (cutoff today : Date) :
    ∀ accounts : List Account,
      (∀ s ∈ (classify accounts occurrences cutoff today).1,
        ∃ a ∈ accounts, s.name = a.name ∧
          0 < (calc_projection (occurrences a.id) a.balance cutoff).1)
      ∧ (∀ d ∈ (classify accounts occurrences cutoff today).2,
        ∃ a ∈ accounts, d.name = a.name ∧
          (calc_projection (occurrences a.id) a.balance cutoff).1 < 0) := by
  intro accounts
  induction accounts with
  | nil =>
      constructor <;> (intro x hx; simp [classify] at hx)
  | cons account rest ih =>
      rw [classify]
      constructor
      · intro s hs
        split at hs
        · obtain ⟨a, ha, h1, h2⟩ := ih.1 s hs
          exact ⟨a, List.mem_cons_of_mem _ ha, h1, h2⟩
        split at hs
        · rcases List.mem_cons.mp hs with rfl | hs
          · rename_i hproj
            exact ⟨account, List.mem_cons_self _ _, rfl, hproj⟩
          · obtain ⟨a, ha, h1, h2⟩ := ih.1 s hs
            exact ⟨a, List.mem_cons_of_mem _ ha, h1, h2⟩
        split at hs
        · obtain ⟨a, ha, h1, h2⟩ := ih.1 s hs
          exact ⟨a, List.mem_cons_of_mem _ ha, h1, h2⟩
        · obtain ⟨a, ha, h1, h2⟩ := ih.1 s hs
          exact ⟨a, List.mem_cons_of_mem _ ha, h1, h2⟩
      · intro d hd
        split at hd
        · obtain ⟨a, ha, h1, h2⟩ := ih.2 d hd
          exact ⟨a, List.mem_cons_of_mem _ ha, h1, h2⟩
        split at hd
        · obtain ⟨a, ha, h1, h2⟩ := ih.2 d hd
          exact ⟨a, List.mem_cons_of_mem _ ha, h1, h2⟩
        split at hd
        · rcases List.mem_cons.mp hd with rfl | hd
          · rename_i hproj
            exact ⟨account, List.mem_cons_self _ _, rfl, hproj⟩
          · obtain ⟨a, ha, h1, h2⟩ := ih.2 d hd
            exact ⟨a, List.mem_cons_of_mem _ ha, h1, h2⟩
        · obtain ⟨a, ha, h1, h2⟩ := ih.2 d hd
          exact ⟨a, List.mem_cons_of_mem _ ha, h1, h2⟩

/-- 2024-01-01, a concrete reference date for witnesses. -/
def jan1_2024 : Date := ⟨2024, 1, 1, by decide, by decide, by decide, by decide, by decide⟩

/-- 2024-01-02. -/
def jan2_2024 : Date := ⟨2024, 1, 2, by decide, by decide, by decide, by decide, by decide⟩

/-- 2024-01-03. -/
def jan3_2024 : Date := ⟨2024, 1, 3, by decide, by decide, by decide, by decide, by decide⟩

/-- 2024-01-05. -/
def jan5_2024 : Date := ⟨2024, 1, 5, by decide, by decide, by decide, by decide, by decide⟩

/-- C1 (amended: the occurrence list is chronologically sorted, as
`build_occurrences` guarantees for every list the program passes in):
`calc_projection` applies exactly the occurrences dated at most the cutoff, in
list order, accumulating into a running balance, and returns the final balance
together with the date of the first occurrence at which the running balance
became strictly negative, or `none` if it never did; a later recovery above
zero does not clear an already-recorded drop date (`first_drop` records only
the first crossing). -/
theorem calc_projection_sorted_spec (acct_occurrences : List (Date × Int))
    (balance : Int) (cutoff : Date)
    (hsorted : acct_occurrences.Pairwise occ_le) :
    calc_projection acct_occurrences balance cutoff
      = (balance
          + ((acct_occurrences.filter fun p => p.1 ≤ cutoff).map Prod.snd).sum,
         first_drop balance (acct_occurrences.filter fun p => p.1 ≤ cutoff)) := by
  unfold calc_projection
  rw [calc_loop_sorted_eq cutoff acct_occurrences balance none hsorted]

theorem calc_projection_sorted_spec_witness :
    ([((jan2_2024 : Date), (-5 : Int)), (jan5_2024, 5)].Pairwise occ_le)
    ∧ calc_projection [(jan2_2024, -5), (jan5_2024, 5)] 0 jan3_2024
        = (0 + (([((jan2_2024 : Date), (-5 : Int)), (jan5_2024, 5)].filter
              fun p => p.1 ≤ jan3_2024).map Prod.snd).sum,
           first_drop 0 ([((jan2_2024 : Date), (-5 : Int)), (jan5_2024, 5)].filter
              fun p => p.1 ≤ jan3_2024)) :=
  ⟨by decide, calc_projection_sorted_spec _ 0 jan3_2024 (by decide)⟩

/-- C1 counterexample: on an occurrence list that is not sorted by date, the
code breaks at the first occurrence past the cutoff and so does not apply all
occurrences dated at most the cutoff — the claim's equation fails. -/
theorem calc_projection_unsorted_counterexample :
    calc_projection [((jan5_2024 : Date), (5 : Int)), (jan2_2024, -5)] 0 jan3_2024
      ≠ (0 + (([((jan5_2024 : Date), (5 : Int)), (jan2_2024, -5)].filter
            fun p => p.1 ≤ jan3_2024).map Prod.snd).sum,
         first_drop 0 ([((jan5_2024 : Date), (5 : Int)), (jan2_2024, -5)].filter
            fun p => p.1 ≤ jan3_2024)) := by
  decide

/-- C4: occurrence generation always terminates (`occurrences_within_window`
is a total function; its recursion strictly increases the cursor's ordinal,
bounded by the cutoff), every yielded date lies within
[`today`, `today + max_days`], and successive yielded dates strictly ascend. -/
theorem occurrences_window_bounds (today start : Date) (frequency : String)
    (max_days : Nat) (hpos : 0 < max_days) :
    (occurrences_within_window today start frequency max_days).Pairwise (· < ·)
    ∧ ∀ d ∈ occurrences_within_window today start frequency max_days,
        today ≤ d ∧ d ≤ addDays today max_days := by
  constructor
  · exact occ_loop_sorted today (addDays today max_days) frequency start
  · intro d hd
    obtain ⟨h1, h2, _⟩ :=
      occ_loop_mem today (addDays today max_days) frequency start d hd
    exact ⟨h1, h2⟩

theorem occurrences_window_bounds_witness :
    0 < 7
    ∧ ((occurrences_within_window jan1_2024 jan2_2024 "weekly" 7).Pairwise (· < ·)
      ∧ ∀ d ∈ occurrences_within_window jan1_2024 jan2_2024 "weekly" 7,
          jan1_2024 ≤ d ∧ d ≤ addDays jan1_2024 7) :=
  ⟨by decide, occurrences_window_bounds jan1_2024 jan2_2024 "weekly" 7 (by decide)⟩

/-- C6: for frequency `"never"`, and for any frequency value outside the
recognized enumerated set, the generator yields at most one occurrence — the
start date, and only if it lies within [`today`, `today + max_days`] — with
no recurrence and no error (the function is total). -/
theorem occurrences_never_or_unknown (today start : Date) (frequency : String)
    (max_days : Nat) (h : frequency ∉ advancing_frequencies) :
    occurrences_within_window today start frequency max_days
      = if today ≤ start ∧ start ≤ addDays today max_days then [start] else [] :=
  occurrences_of_none today start frequency max_days
    (advance_date_eq_none h start)

theorem occurrences_never_or_unknown_witness :
    ("never" ∉ advancing_frequencies)
    ∧ occurrences_within_window jan1_2024 jan2_2024 "never" 7
        = if jan1_2024 ≤ jan2_2024 ∧ jan2_2024 ≤ addDays jan1_2024 7
          then [jan2_2024] else [] :=
  ⟨by decide,
   occurrences_never_or_unknown jan1_2024 jan2_2024 "never" 7 (by decide)⟩

/-- C5 (amended: sorted non-decreasingly rather than strictly — two schedules
for one account can produce equal dates): each account's occurrence list from
`build_occurrences` is sorted by date, and every date lies within
[`today`, `today + max_window`]. -/
theorem build_occurrences_sorted_bounded (scheduled : List Schedule)
    (max_window : Nat) (today : Date) (account_id : String) :
    (build_occurrences scheduled max_window today account_id).Pairwise occ_le
    ∧ ∀ p ∈ build_occurrences scheduled max_window today account_id,
        today ≤ p.1 ∧ p.1 ≤ addDays today max_window :=
  ⟨List.sorted_insertionSort occ_le _,
   build_occurrences_mem scheduled max_window today account_id⟩

/-- A schedule used by the C5 counterexample: account "A", amount 5, next
date 2024-01-02, frequency "never". -/
def sched_never_A : Schedule := ⟨"A", 5, [], jan2_2024, "never"⟩

/-- C5 counterexample: two identical `"never"` schedules on one account yield
two occurrences with the same date, so the per-account list is not strictly
ascending by date. -/
theorem build_occurrences_not_strict_counterexample :
    ¬ (build_occurrences [sched_never_A, sched_never_A] 7 jan1_2024 "A").Pairwise
        (fun p q => p.1 < q.1) := by
  have hocc : occurrences_within_window jan1_2024 jan2_2024 "never" 7
      = [jan2_2024] := by
    rw [occurrences_of_none _ _ _ _ (advance_date_eq_none (by decide) _)]
    decide
  have h : build_occurrences [sched_never_A, sched_never_A] 7 jan1_2024 "A"
      = [(jan2_2024, 5), (jan2_2024, 5)] := by
    have hs : schedule_occurrences jan1_2024 7 sched_never_A = [(jan2_2024, 5)] := by
      unfold schedule_occurrences
      rw [if_neg (by decide), if_neg (by decide)]
      show ((occurrences_within_window jan1_2024 jan2_2024 "never" 7).filter
          fun occurrence => ¬ occurrence < jan1_2024).map
            (fun occurrence => (occurrence, schedule_amount sched_never_A)) = _
      rw [hocc]
      decide
    unfold build_occurrences
    rw [show ([sched_never_A, sched_never_A].filter
          fun txn => txn.account_id = "A") = [sched_never_A, sched_never_A] from by
        simp [sched_never_A]]
    rw [List.map_cons, List.map_cons, List.map_nil, hs]
    decide
  rw [h]
  decide

/-- C7: accounts with an empty (or absent, which reads as empty) occurrence
list produce no risk entry in any window, even when the balance is already
negative: removing all such accounts from the input leaves `compute_risk`
unchanged. -/
theorem compute_risk_ignores_empty (accounts : List Account)
    (occurrences : String → List (Date × Int)) (windows : List Nat)
    (today : Date) :
    compute_risk accounts occurrences windows today
      = compute_risk (accounts.filter fun a => ¬ occurrences a.id = [])
          occurrences windows today := by
  unfold compute_risk
  apply List.map_congr_left
  intro win _
  refine congrArg _ (congrArg _ ?_)
  refine (filterMap_filter_of_none _ _ ?_ accounts).symm
  intro a ha
  have hempty : occurrences a.id = [] := by simpa using ha
  by_cases hc : is_cash_account a
  · simp [hc, hempty]
  · simp [hc]

/-- C8: in the risk map, each window's entry list is sorted by projected
balance ascending (most negative first). -/
theorem compute_risk_entries_sorted (accounts : List Account)
    (occurrences : String → List (Date × Int)) (windows : List Nat)
    (today : Date) (win : Nat) (entries : List RiskEntry)
    (h : (win, entries) ∈ compute_risk accounts occurrences windows today) :
    entries.Pairwise risk_le := by
  unfold compute_risk at h
  rw [List.mem_map] at h
  obtain ⟨w, _, hw⟩ := h
  rw [Prod.mk.injEq] at hw
  rw [← hw.2]
  exact List.sorted_insertionSort risk_le _

/-- Witness accounts for C8: both cash accounts with a deficit occurrence, so
the window-7 entries carry projected balances −5000 and −2000 and must come
out with −5000 first. -/
def account_Arisk : Account := ⟨"a", "A", "checking", true, 0⟩

def account_Brisk : Account := ⟨"b", "B", "checking", true, 0⟩

theorem compute_risk_entries_sorted_witness :
    ((3, [⟨"A", -5000, 0, 3, jan2_2024⟩, ⟨"B", -2000, 0, 3, jan2_2024⟩])
        ∈ compute_risk [account_Arisk, account_Brisk]
            (fun id => if id = "a" then [(jan2_2024, -5000)]
                       else if id = "b" then [(jan2_2024, -2000)] else [])
            [3] jan1_2024)
    ∧ ([(⟨"A", -5000, 0, 3, jan2_2024⟩ : RiskEntry),
        ⟨"B", -2000, 0, 3, jan2_2024⟩].Pairwise risk_le) :=
  ⟨by decide,
   compute_risk_entries_sorted [account_Arisk, account_Brisk]
     (fun id => if id = "a" then [(jan2_2024, -5000)]
                else if id = "b" then [(jan2_2024, -2000)] else [])
     [3] jan1_2024 3 _ (by decide)⟩

/-- C9: `add_months` lands in the target month — source month plus the count,
carrying into the year — with the day-of-month equal to the source's day
clamped to the last valid day of the target month; every month-based
frequency advance (monthly, everyOtherMonth, every3Months, every4Months,
twiceAYear, yearly, everyOtherYear) is `add_months` with the matching count. -/
theorem add_months_clamps (src : Date) (months : Nat) :
    ((add_months src months).year * 12 + ((add_months src months).month - 1)
        = src.year * 12 + (src.month - 1) + months)
    ∧ ((add_months src months).day
        = if src.day ≤ daysInMonth (add_months src months).year
              (add_months src months).month
          then src.day
          else daysInMonth (add_months src months).year
              (add_months src months).month)
    ∧ advance_date src "monthly" = some (add_months src 1)
    ∧ advance_date src "everyOtherMonth" = some (add_months src 2)
    ∧ advance_date src "every3Months" = some (add_months src 3)
    ∧ advance_date src "every4Months" = some (add_months src 4)
    ∧ advance_date src "twiceAYear" = some (add_months src 6)
    ∧ advance_date src "yearly" = some (add_months src 12)
    ∧ advance_date src "everyOtherYear" = some (add_months src 24) := by
  refine ⟨?_, ?_, rfl, rfl, rfl, rfl, rfl, rfl, rfl⟩
  · show (src.year + (src.month - 1 + months) / 12) * 12
        + ((src.month - 1 + months) % 12 + 1 - 1)
      = src.year * 12 + (src.month - 1) + months
    omega
  · show min src.day
        (daysInMonth (add_months src months).year (add_months src months).month)
      = _
    rw [Nat.min_def]

/-- C2: for a deficit group with positive total need fully covered by the
available pool, the per-group step of `compute_transfers` never draws a
surplus below zero (and only ever decreases availables), partitions its moves
per deficit so that each deficit receives exactly its (positive) need and
never more, and the group's move amounts sum exactly to the total need; no
uncovered record is produced. -/
theorem transfers_covered_group_exact (surpluses : List Surplus) (dd : Date)
    (group : List Deficit) (hneed : 0 < total_need group)
    (hpool : total_need group ≤ available_pool surpluses) :
    List.Forall₂ drawn_down surpluses (process_group surpluses dd group).1
    ∧ (process_group surpluses dd group).2.2 = []
    ∧ (((process_group surpluses dd group).2.1).map Move.amount).sum
        = total_need group
    ∧ ∃ mss : List (List Move),
        (process_group surpluses dd group).2.1 = mss.flatten
        ∧ List.Forall₂ (fun (d : Deficit) ms =>
            (∀ m ∈ ms, m.dst = d.name ∧ m.cover_drop = d.drop_date)
            ∧ (ms.map Move.amount).sum = (if 0 < d.need then d.need else 0))
          group mss := by
  rw [process_group_covered_eq surpluses dd group hneed hpool]
  have hpos := pos_alloc_sum_map_need group
  obtain ⟨mss, hA, hB, _⟩ :=
    exec_allocations_sum (group.map fun d => (d.need, d)) surpluses
      (by rw [hpos]; exact hpool)
  obtain ⟨hF, _⟩ := exec_allocations_props (group.map fun d => (d.need, d)) surpluses
  refine ⟨hF, rfl, ?_, mss, hA, ?_⟩
  · show ((exec_allocations surpluses (group.map fun d => (d.need, d))).2.map
        Move.amount).sum = total_need group
    rw [hA, forall₂_flatten_amount_sum hB, hpos]
  · exact List.forall₂_map_left_iff.mp hB

/-- Witness deficit: account "A" needing 5000 at 2024-01-02. -/
def deficit_A : Deficit := ⟨"a", "A", 5000, jan2_2024⟩

/-- Witness surplus: account "B" with 20000 available. -/
def surplus_B : Surplus := ⟨"b", "B", 20000⟩

theorem transfers_covered_group_exact_witness :
    (0 < total_need [deficit_A]
      ∧ total_need [deficit_A] ≤ available_pool [surplus_B])
    ∧ (List.Forall₂ drawn_down [surplus_B]
          (process_group [surplus_B] jan2_2024 [deficit_A]).1
      ∧ (process_group [surplus_B] jan2_2024 [deficit_A]).2.2 = []
      ∧ (((process_group [surplus_B] jan2_2024 [deficit_A]).2.1).map
            Move.amount).sum = total_need [deficit_A]
      ∧ ∃ mss : List (List Move),
          (process_group [surplus_B] jan2_2024 [deficit_A]).2.1 = mss.flatten
          ∧ List.Forall₂ (fun (d : Deficit) ms =>
              (∀ m ∈ ms, m.dst = d.name ∧ m.cover_drop = d.drop_date)
              ∧ (ms.map Move.amount).sum = (if 0 < d.need then d.need else 0))
            [deficit_A] mss) :=
  ⟨⟨by decide, by decide⟩,
   transfers_covered_group_exact [surplus_B] jan2_2024 [deficit_A]
     (by decide) (by decide)⟩

/-- C3: a deficit group with positive total need whose available pool falls
short (even by one unit) gets no moves, leaves every surplus's remaining
available amount unchanged, and is recorded as uncovered with its total need,
the pool snapshot, and its member accounts. -/
theorem transfers_short_group_uncovered (surpluses : List Surplus) (dd : Date)
    (group : List Deficit) (hneed : 0 < total_need group)
    (hpool : available_pool surpluses < total_need group) :
    process_group surpluses dd group
      = (surpluses, [],
         [⟨dd, total_need group, available_pool surpluses, group⟩]) :=
  process_group_uncovered_eq surpluses dd group hneed hpool

/-- Witness surplus for C3: one unit short of the 5000 need. -/
def surplus_B_short : Surplus := ⟨"b", "B", 4999⟩

theorem transfers_short_group_uncovered_witness :
    (0 < total_need [deficit_A]
      ∧ available_pool [surplus_B_short] < total_need [deficit_A])
    ∧ process_group [surplus_B_short] jan2_2024 [deficit_A]
        = ([surplus_B_short], [],
           [⟨jan2_2024, total_need [deficit_A],
             available_pool [surplus_B_short], [deficit_A]⟩]) :=
  ⟨⟨by decide, by decide⟩,
   transfers_short_group_uncovered [surplus_B_short] jan2_2024 [deficit_A]
     (by decide) (by decide)⟩

/-- C10: the classification step puts each account in at most one of the
surplus (projection strictly positive) or deficit (strictly negative) lists,
so under distinct account names the two name sets are disjoint; consequently
every emitted move has a strictly positive amount and distinct source and
destination. -/
theorem compute_transfers_moves_wellformed (accounts : List Account)
    (occurrences : String → List (Date × Int)) (windows : List Nat)
    (today : Date) (hnames : (accounts.map Account.name).Nodup) :
    (∀ cutoff : Date,
      ∀ n ∈ ((classify accounts occurrences cutoff today).1).map Surplus.name,
        n ∉ ((classify accounts occurrences cutoff today).2).map Deficit.name)
    ∧ ∀ m ∈ (compute_transfers accounts occurrences windows today).1,
        0 < m.amount ∧ m.src ≠ m.dst := by
  have hdisj : ∀ cutoff : Date,
      ∀ n ∈ ((classify accounts occurrences cutoff today).1).map Surplus.name,
        n ∉ ((classify accounts occurrences cutoff today).2).map Deficit.name := by
    intro cutoff n hn hn2
    rw [List.mem_map] at hn hn2
    obtain ⟨s, hs, rfl⟩ := hn
    obtain ⟨d, hd, hnd⟩ := hn2
    obtain ⟨a1, ha1, he1, hp1⟩ :=
      (classify_mem occurrences cutoff today accounts).1 s hs
    obtain ⟨a2, ha2, he2, hp2⟩ :=
      (classify_mem occurrences cutoff today accounts).2 d hd
    have haeq : a1 = a2 :=
      List.inj_on_of_nodup_map hnames ha1 ha2
        (by rw [← he1, ← he2, hnd])
    rw [haeq] at hp1
    omega
  refine ⟨hdisj, ?_⟩
  intro m hm
  unfold compute_transfers at hm
  split at hm
  · simp at hm
  · simp only at hm
    obtain ⟨h1, h2, h3⟩ := group_fold_moves _ _ m hm
    refine ⟨h1, ?_⟩
    rw [deficit_groups_flatten] at h3
    have h2' := ((List.perm_insertionSort surplus_ge _).map Surplus.name).mem_iff.mp h2
    have h3' := ((List.perm_insertionSort deficit_order _).map Deficit.name).mem_iff.mp h3
    intro heq
    exact hdisj _ m.src h2' (heq ▸ h3')

/-- Witness accounts for C10: "A" cash with balance −3000 and no occurrences
(deficit), "B" cash with balance 5000 (surplus). -/
def account_Aneg : Account := ⟨"a", "A", "checking", true, -3000⟩

def account_Bpos : Account := ⟨"b", "B", "checking", true, 5000⟩

theorem compute_transfers_moves_wellformed_witness :
    (([account_Aneg, account_Bpos].map Account.name).Nodup)
    ∧ ((∀ cutoff : Date,
        ∀ n ∈ ((classify [account_Aneg, account_Bpos] (fun _ => []) cutoff
            jan1_2024).1).map Surplus.name,
          n ∉ ((classify [account_Aneg, account_Bpos] (fun _ => []) cutoff
            jan1_2024).2).map Deficit.name)
      ∧ ∀ m ∈ (compute_transfers [account_Aneg, account_Bpos] (fun _ => [])
            [7] jan1_2024).1,
          0 < m.amount ∧ m.src ≠ m.dst) :=
  ⟨by decide,
   compute_transfers_moves_wellformed [account_Aneg, account_Bpos]
     (fun _ => []) [7] jan1_2024 (by decide)⟩

end YnabChecker
